import Mathlib

/-!
Verification development for the ConeEditor indexing core
(src/python/database.py, src/python/server.py).

Python strings are modelled as `List Char` (sequences of code points, which is
what Python `str` is).  SQLite tables are modelled as Lean lists in rowid
order: a table scan visits rows in insertion order, and `INSERT OR REPLACE`
deletes the conflicting row and appends the replacement at the end.
-/

namespace ConeEditor

/-- Whitespace predicate: ASCII model of Python `str.strip` / `\s`. -/
def isWS (c : Char) : Bool := c.isWhitespace

/-- Python `s.strip()`: drop leading and trailing whitespace. -/
def trimChars (l : List Char) : List Char :=
  ((l.dropWhile isWS).reverse.dropWhile isWS).reverse

/-- Python `content.split("\n\n")`: non-overlapping left-to-right split on a
double line feed.  `"".split` gives `[""]`, separators at the ends give empty
pieces, as in Python. -/
def splitPar : List Char → List (List Char)
  | [] => [[]]
  | '\n' :: '\n' :: rest => [] :: splitPar rest
  | c :: rest =>
    match splitPar rest with
    | [] => [[c]]
    | g :: gs => (c :: g) :: gs

/-- Python `content.split("\n")`. -/
def splitNl : List Char → List (List Char)
  | [] => [[]]
  | '\n' :: rest => [] :: splitNl rest
  | c :: rest =>
    match splitNl rest with
    | [] => [[c]]
    | g :: gs => (c :: g) :: gs

/-- The two-character paragraph separator consumed by the chunker. -/
def parSep : List Char := ['\n', '\n']

/-- Join paragraphs back with the double line feed separator. -/
def joinPar (gs : List (List Char)) : List Char := List.intercalate parSep gs

/-- `re.match(r'^(#{1,6})\s+(.+)$', line.strip())` from
`DatabaseManager.index_headings`: 1-6 leading hash marks on the trimmed line,
then at least one whitespace character, then non-empty text; returns the level
and the trimmed heading text. -/
def parseHeading (line : List Char) : Option (Nat × List Char) :=
  let t := trimChars line
  let hashes := t.takeWhile (fun c => c = '#')
  let n := hashes.length
  if n = 0 ∨ 6 < n then none
  else
    let rest := t.drop n
    if (rest.takeWhile isWS).length = 0 then none
    else
      let txt := rest.dropWhile isWS
      if txt.length = 0 then none else some (n, trimChars txt)

/-- Offset bookkeeping of `index_headings`: walk the lines, each line starting
at the running offset, which then advances by the line length plus one for the
line feed.  Produces `(text, level, start_offset)` triples in document order. -/
def headingItemsGo : List (List Char) → Nat → List (List Char × Nat × Nat)
  | [], _ => []
  | line :: rest, off =>
    match parseHeading line with
    | some lt => (lt.2, lt.1, off) :: headingItemsGo rest (off + line.length + 1)
    | none => headingItemsGo rest (off + line.length + 1)

def headingItems (content : List Char) : List (List Char × Nat × Nat) :=
  headingItemsGo (splitNl content) 0

/-- Python `Path(path).name`: the part after the last slash. -/
def nameOf (path : List Char) : List Char :=
  (path.reverse.takeWhile (fun c => c ≠ '/')).reverse

/-- Python `Path(path).stem`: the name with its last suffix removed.  The last
dot counts as starting a suffix only when it is neither the first nor the last
character of the name. -/
def stemOf (name : List Char) : List Char :=
  let revIdx := name.reverse.findIdx (fun c => c = '.')
  if revIdx < name.length then
    let i := name.length - 1 - revIdx
    if 0 < i ∧ i < name.length - 1 then name.take i else name
  else name

/-- `DatabaseManager._extract_title`: the text of the first line matching
`^#\s+(.+)$` (exactly one hash mark, i.e. a level-1 heading), else the
filename without extension.  `parseHeading` restricted to level 1 matches that
regex exactly. -/
def extract_title (content path : List Char) : List Char :=
  match (splitNl content).findSome?
      (fun l => match parseHeading l with
        | some lt => if lt.1 = 1 then some lt.2 else none
        | none => none) with
  | some t => t
  | none => stemOf (nameOf path)

/-- ASCII model of the `\w` character class of `re.findall(r'\w+', content)`. -/
def isWordChar (c : Char) : Bool := c.isAlphanum || c = '_'

/-- `len(re.findall(r'\w+', content))`: the number of maximal runs of word
characters. -/
def word_count (content : List Char) : Nat :=
  (content.foldl
    (fun st c =>
      let w := isWordChar c
      (w, if w && !st.1 then st.2 + 1 else st.2))
    ((false : Bool), 0)).2

/-- SQLite default `LIKE` character comparison: ASCII-case-insensitive. -/
def likeCharEq (p c : Char) : Bool := p.toLower = c.toLower

/-- SQLite `LIKE` pattern matching: `%` matches any sequence, `_` any single
character, other characters compare ASCII-case-insensitively.  Every
recursive call shrinks the pattern or the subject, so fuel equal to their
joint length always suffices (structural recursion on the fuel keeps the
function computable inside the kernel). -/
def sqlLikeGo : Nat → List Char → List Char → Bool
  | 0, _, _ => false
  | _ + 1, [], [] => true
  | _ + 1, [], _ :: _ => false
  | fuel + 1, '%' :: ps, [] => sqlLikeGo fuel ps []
  | fuel + 1, '%' :: ps, c :: s => sqlLikeGo fuel ps (c :: s) || sqlLikeGo fuel ('%' :: ps) s
  | _ + 1, '_' :: _, [] => false
  | fuel + 1, '_' :: ps, _ :: s => sqlLikeGo fuel ps s
  | _ + 1, _ :: _, [] => false
  | fuel + 1, p :: ps, c :: s => likeCharEq p c && sqlLikeGo fuel ps s

def sqlLike (p s : List Char) : Bool := sqlLikeGo (p.length + s.length + 1) p s

/-- A row of the `notes` table (`created_at` and the constant `"{}"` metadata
blob carry no information used by the core and are omitted). -/
structure NoteRow where
  note_id : List Char
  path : List Char
  title : List Char
  modified_at : List Char
  word_count : Nat
deriving DecidableEq

/-- A row of the `headings` table; `id` is the autoincrement primary key. -/
structure HeadingRow where
  id : Nat
  note_id : List Char
  heading : List Char
  level : Nat
  start_offset : Nat
deriving DecidableEq

/-- A row of the `links` table (its autoincrement `id` is never read by the
core and is omitted). -/
structure LinkRow where
  src_note : List Char
  dst_note : List Char
  link_text : List Char
  occurrences : Nat
deriving DecidableEq

/-- A row of the `chunks` table. -/
structure ChunkRow where
  chunk_id : List Char
  note_id : List Char
  heading_id : Option Nat
  start_offset : Nat
  end_offset : Nat
  text : List Char
deriving DecidableEq

/-- The database state: the four tables in rowid order plus the autoincrement
counter of the `headings` table. -/
structure DB where
  notes : List NoteRow
  headings : List HeadingRow
  links : List LinkRow
  chunks : List ChunkRow
  nextHeadingId : Nat
deriving DecidableEq

def emptyDB : DB := ⟨[], [], [], [], 0⟩

/-- The `WHERE` clause of `_resolve_link_target`:
`path = ? OR title = ? OR path LIKE '%/' || ? OR path LIKE '%/' || ? || '.md'`. -/
def whereMatch (t : List Char) (n : NoteRow) : Bool :=
  n.path == t || n.title == t || sqlLike ('%' :: '/' :: t) n.path
    || sqlLike ('%' :: '/' :: (t ++ ['.', 'm', 'd'])) n.path

/-- The `CASE` ranking of `_resolve_link_target`: title exact 1, path exact 2,
path `LIKE '%/' || target || '.md'` 3, else 4. -/
def rankOf (t : List Char) (n : NoteRow) : Nat :=
  if n.title == t then 1
  else if n.path == t then 2
  else if sqlLike ('%' :: '/' :: (t ++ ['.', 'm', 'd'])) n.path then 3
  else 4

/-- One step of `ORDER BY rank LIMIT 1`: keep the incumbent unless the new
row has a strictly smaller rank, so the first row attaining the minimal rank
in table scan order wins. -/
def pickStep (t : List Char) (best : Option NoteRow) (n : NoteRow) : Option NoteRow :=
  match best with
  | none => some n
  | some b => if rankOf t n < rankOf t b then some n else some b

def pickBest (t : List Char) (cands : List NoteRow) : Option NoteRow :=
  cands.foldl (pickStep t) none

/-- `DatabaseManager._resolve_link_target`: the path of the best candidate, or
the raw target unchanged when no row matches. -/
def resolve_link_target (notes : List NoteRow) (t : List Char) : List Char :=
  match pickBest t (notes.filter (whereMatch t)) with
  | some n => n.path
  | none => t

/-- One attempt of the regex `\[\[([^\]|]+)(\|([^\]]+))?\]\]` anchored at the
head of the list: target up to a closing bracket or pipe, optional alias up to
a closing bracket, then the two closing brackets.  Returns the groups and the
remaining input after the match. -/
def matchWikilinkAt : List Char → Option ((List Char × Option (List Char)) × List Char)
  | '[' :: '[' :: rest =>
    let tgt := rest.takeWhile (fun c => c ≠ ']' && c ≠ '|')
    let r1 := rest.dropWhile (fun c => c ≠ ']' && c ≠ '|')
    if tgt.length = 0 then none
    else
      match r1 with
      | '|' :: r2 =>
        let al := r2.takeWhile (fun c => c ≠ ']')
        let r3 := r2.dropWhile (fun c => c ≠ ']')
        if al.length = 0 then none
        else
          match r3 with
          | ']' :: ']' :: r4 => some ((tgt, some al), r4)
          | _ => none
      | ']' :: ']' :: r4 => some ((tgt, none), r4)
      | _ => none
  | _ => none

/-- `re.finditer` over the wikilink pattern: try to match at every position
left to right, continuing after each match.  A successful match always
consumes at least five characters, so length-many fuel never runs out. -/
def scanWikilinksGo : Nat → List Char → List (List Char × Option (List Char))
  | 0, _ => []
  | _ + 1, [] => []
  | fuel + 1, c :: rest =>
    match matchWikilinkAt (c :: rest) with
    | some mr => mr.1 :: scanWikilinksGo fuel mr.2
    | none => scanWikilinksGo fuel rest

def scanWikilinks (content : List Char) : List (List Char × Option (List Char)) :=
  scanWikilinksGo content.length content

/-- `link_text = alias or target` of `index_links`: the trimmed alias when it
is present and non-empty after trimming, else the trimmed target. -/
def displayOf (tgt : List Char) (al : Option (List Char)) : List Char :=
  match al with
  | some a =>
    let a2 := trimChars a
    if a2.length = 0 then trimChars tgt else a2
  | none => trimChars tgt

/-- The per-mention bookkeeping of `index_links`: a first occurrence of a
resolved destination appends a row with the display text and count one; a
later occurrence only increments the count of the existing row. -/
def addMention (rows : List (List Char × List Char × Nat)) (d t : List Char) :
    List (List Char × List Char × Nat) :=
  if rows.any (fun r => r.1 == d) then
    rows.map (fun r => if r.1 == d then (r.1, r.2.1, r.2.2 + 1) else r)
  else rows ++ [(d, t, 1)]

def aggMentions (ms : List (List Char × List Char)) : List (List Char × List Char × Nat) :=
  ms.foldl (fun acc m => addMention acc m.1 m.2) []

/-- The mention stream of `index_links` under a given target resolver: each
raw wikilink match becomes its resolved destination paired with its display
text, in document order. -/
def mentionsWith (resolver : List Char → List Char) (content : List Char) :
    List (List Char × List Char) :=
  (scanWikilinks content).map (fun m => (resolver (trimChars m.1), displayOf m.1 m.2))

/-- The link rows inserted by `index_links` for one note. -/
def linkRowsWith (resolver : List Char → List Char) (note_id content : List Char) :
    List LinkRow :=
  (aggMentions (mentionsWith resolver content)).map (fun r => ⟨note_id, r.1, r.2.1, r.2.2⟩)

def linkRows (notes : List NoteRow) (note_id content : List Char) : List LinkRow :=
  linkRowsWith (resolve_link_target notes) note_id content

/-- The mention stream of `index_links` with the real resolver. -/
def mentionsOf (notes : List NoteRow) (content : List Char) : List (List Char × List Char) :=
  mentionsWith (resolve_link_target notes) content

/-- `max_chunk_size` of `create_chunks`. -/
def maxChunkSize : Nat := 1000

/-- Model of `hashlib.sha1(content.encode()).hexdigest()[:16]`.  SHA-1 is an
external library primitive; it is modelled as an abstract deterministic
function of its input - the development relies only on it being a function,
never on any property of the digest values. -/
def sha1hex16 (s : List Char) : List Char := s

/-- `DatabaseManager._generate_chunk_id`: digest of `f"{note_id}:{start_offset}"`. -/
def generate_chunk_id (note_id : List Char) (start_offset : Nat) : List Char :=
  sha1hex16 (note_id ++ ':' :: Nat.toDigits 10 start_offset)

/-- One iteration of the loop of `_find_heading_for_chunk`: take the new
heading when its absolute distance to the chunk start is strictly below the
best distance so far (infinity initially, modelled by `none`) and its offset
is at most the chunk start. -/
def fhStep (chunk_start : Nat) (st : Option HeadingRow × Option Nat) (h : HeadingRow) :
    Option HeadingRow × Option Nat :=
  let dist := ((h.start_offset : Int) - (chunk_start : Int)).natAbs
  let better : Bool :=
    match st.2 with
    | none => true
    | some b => decide (dist < b)
  if better && decide (h.start_offset ≤ chunk_start) then (some h, some dist) else st

/-- `DatabaseManager._find_heading_for_chunk`. -/
def find_heading_for_chunk (headings : List HeadingRow) (chunk_start : Nat) : Option Nat :=
  (headings.foldl (fhStep chunk_start)
    ((none : Option HeadingRow), (none : Option Nat))).1.map (fun h => h.id)

/-- The chunk row inserted by `create_chunks` for a flushed chunk. -/
def mkChunk (note_id : List Char) (headings : List HeadingRow) (text : List Char)
    (s e : Nat) : ChunkRow :=
  ⟨generate_chunk_id note_id s, note_id, find_heading_for_chunk headings s, s, e, text⟩

/-- The paragraph loop of `create_chunks`.  State: pending chunk text, its
start offset, and the running offset (which advances by the paragraph length
plus two for the separator after every paragraph).  A paragraph whose addition
would push the pending length beyond the maximum flushes the pending chunk
first; the final pending chunk is flushed only when non-blank. -/
def chunkGo (note_id : List Char) (headings : List HeadingRow) :
    List (List Char) → List Char → Nat → Nat → List ChunkRow
  | [], cur, start, off =>
    if (trimChars cur).length ≠ 0 then [mkChunk note_id headings cur start off] else []
  | p :: ps, cur, start, off =>
    if cur.length ≠ 0 ∧ maxChunkSize < cur.length + p.length then
      mkChunk note_id headings cur start off ::
        chunkGo note_id headings ps p off (off + p.length + 2)
    else if cur.length ≠ 0 then
      chunkGo note_id headings ps (cur ++ parSep ++ p) start (off + p.length + 2)
    else
      chunkGo note_id headings ps p off (off + p.length + 2)

/-- The chunk rows inserted by `create_chunks` for one note. -/
def chunkRowsOf (note_id content : List Char) (headings : List HeadingRow) : List ChunkRow :=
  chunkGo note_id headings (splitPar content) [] 0 0

/-- `DatabaseManager.upsert_note`: `INSERT OR REPLACE` keyed by `note_id`
(which is the path); the replaced row moves to the end of the table. -/
def upsert_note (db : DB) (path content modified_at : List Char) : DB × List Char :=
  let note_id := path
  let row : NoteRow :=
    ⟨note_id, path, extract_title content path, modified_at, word_count content⟩
  ({ db with notes := db.notes.filter (fun n => !(n.note_id == note_id)) ++ [row] }, note_id)

/-- The heading rows inserted by `index_headings`, with consecutive
autoincrement ids starting at `firstId`. -/
def genHeadingRows (note_id content : List Char) (firstId : Nat) : List HeadingRow :=
  (headingItems content).enum.map (fun e => ⟨firstId + e.1, note_id, e.2.1, e.2.2.1, e.2.2.2⟩)

/-- `DatabaseManager.index_headings`: delete this note's headings, insert the
freshly extracted ones, all in one committed transaction. -/
def index_headings (db : DB) (note_id content : List Char) : DB × List HeadingRow :=
  let rows := genHeadingRows note_id content db.nextHeadingId
  ({ db with
      headings := db.headings.filter (fun h => !(h.note_id == note_id)) ++ rows
      nextHeadingId := db.nextHeadingId + rows.length }, rows)

/-- `DatabaseManager.index_links` with an explicit resolver (the resolver is
`_resolve_link_target` normally, and the identity on the raw target when the
resolver's own query fails, per its `except` clause). -/
def index_links_core (resolver : List Char → List Char) (db : DB) (note_id content : List Char) :
    DB × List LinkRow :=
  let rows := linkRowsWith resolver note_id content
  ({ db with links := db.links.filter (fun l => !(l.src_note == note_id)) ++ rows }, rows)

def index_links (db : DB) (note_id content : List Char) : DB × List LinkRow :=
  index_links_core (resolve_link_target db.notes) db note_id content

/-- `DatabaseManager.create_chunks`: delete this note's chunks, insert the
freshly computed ones. -/
def create_chunks (db : DB) (note_id content : List Char) (headings : List HeadingRow) :
    DB × List ChunkRow :=
  let rows := chunkRowsOf note_id content headings
  ({ db with chunks := db.chunks.filter (fun c => !(c.note_id == note_id)) ++ rows }, rows)

/-- The result reported by the `/index` endpoint (request bookkeeping and the
truncated chunk previews omitted; the rows are the stored ones). -/
structure IndexResult where
  note_id : List Char
  headings_count : Nat
  links_count : Nat
  chunks : List ChunkRow
deriving DecidableEq

/-- The `index_note` pipeline of server.py with an explicit link-target
resolver (applied to the notes table as it stands when `index_links` runs,
i.e. after this call's own upsert). -/
def index_note_with (resolver : List NoteRow → List Char → List Char)
    (db : DB) (path content modified_at : List Char) : DB × IndexResult :=
  let u := upsert_note db path content modified_at
  let h := index_headings u.1 u.2 content
  let l := index_links_core (resolver h.1.notes) h.1 u.2 content
  let c := create_chunks l.1 u.2 content h.2
  (c.1, ⟨u.2, h.2.length, l.2.length, c.2⟩)

/-- `index_note` of server.py: upsert the note, then replace headings, links
and chunks, each step committing its own transaction. -/
def index_note (db : DB) (path content modified_at : List Char) : DB × IndexResult :=
  index_note_with resolve_link_target db path content modified_at

/-- Failure injection: each flag makes the corresponding storage operation
raise `sqlite3.Error` (modelled at commit time, so the failing step's own
transaction rolls back and leaves the database exactly as it was before that
step).  `resolve` makes the query inside `_resolve_link_target` fail. -/
structure Faults where
  upsert : Bool
  headings : Bool
  links : Bool
  chunks : Bool
  resolve : Bool
deriving DecidableEq

def noFaults : Faults := ⟨false, false, false, false, false⟩

/-- `index_note` under injected storage failures.  A failing step leaves the
database as it was before that step and aborts the call (`none`, the HTTP 500
path); a failure inside `_resolve_link_target` is caught there and resolution
falls back to the raw target, per the `except sqlite3.Error` clause. -/
def index_note_f (db : DB) (f : Faults) (path content modified_at : List Char) :
    DB × Option IndexResult :=
  if f.upsert then (db, none) else
  let u := upsert_note db path content modified_at
  if f.headings then (u.1, none) else
  let h := index_headings u.1 u.2 content
  if f.links then (h.1, none) else
  let resolver := if f.resolve then (fun t => t) else resolve_link_target h.1.notes
  let l := index_links_core resolver h.1 u.2 content
  if f.chunks then (l.1, none) else
  let c := create_chunks l.1 u.2 content h.2
  (c.1, some ⟨u.2, h.2.length, l.2.length, c.2⟩)

/-- A row returned by `get_backlinks` (the `LEFT JOIN` makes the linking
note's title and path optional). -/
structure BacklinkRow where
  src_note : List Char
  src_title : Option (List Char)
  src_path : Option (List Char)
  link_text : List Char
  occurrences : Nat
deriving DecidableEq

/-- Lexicographic comparison of code-point sequences, the SQLite `TEXT`
ordering under the default binary collation. -/
def charLe : List Char → List Char → Bool
  | [], _ => true
  | _ :: _, [] => false
  | a :: as, b :: bs => if a = b then charLe as bs else decide (a < b)

/-- Descending `TEXT` ordering on a nullable column: SQLite sorts `NULL`
first ascending, hence last descending. -/
def optDescLe (a b : Option (List Char)) : Bool :=
  match a, b with
  | none, none => true
  | none, some _ => false
  | some _, none => true
  | some x, some y => charLe y x

/-- `ORDER BY l.occurrences DESC, n.modified_at DESC` on rows paired with the
joined modification time. -/
def backlinkLe (a b : BacklinkRow × Option (List Char)) : Bool :=
  if a.1.occurrences = b.1.occurrences then optDescLe a.2 b.2
  else decide (b.1.occurrences < a.1.occurrences)

/-- `DatabaseManager.get_backlinks`: an unknown path yields the empty list;
otherwise all link rows whose destination is among the note's path, title,
filename and stem (empty identifiers removed, as by `filter(None, ...)`),
left-joined with the linking note and sorted. -/
def get_backlinks (db : DB) (note_path : List Char) : List BacklinkRow :=
  match db.notes.find? (fun n => n.path == note_path) with
  | none => []
  | some note =>
    let targets := [note_path, note.title, nameOf note_path,
      stemOf (nameOf note_path)].filter (fun t => t.length ≠ 0)
    let matched := db.links.filter (fun l => targets.any (fun t => t == l.dst_note))
    let joined := matched.map (fun l =>
      match db.notes.find? (fun n => n.note_id == l.src_note) with
      | some n =>
        ((⟨l.src_note, some n.title, some n.path, l.link_text, l.occurrences⟩ : BacklinkRow),
          some n.modified_at)
      | none => ((⟨l.src_note, none, none, l.link_text, l.occurrences⟩ : BacklinkRow), none))
    (joined.mergeSort backlinkLe).map (fun r => r.1)

/-- The record returned by `get_note_info` (`created_at` omitted as in
`NoteRow`). -/
structure NoteInfo where
  note_id : List Char
  path : List Char
  title : List Char
  modified_at : List Char
  word_count : Nat
  headings : List HeadingRow
  backlinks : List BacklinkRow
deriving DecidableEq

/-- `DatabaseManager.get_note_info`: `None` (the NotFound / 404 path) when no
notes row has this path or note id; otherwise the note's metadata with its
headings ordered by offset and its backlinks. -/
def get_note_info (db : DB) (note_path : List Char) : Option NoteInfo :=
  match db.notes.find? (fun n => n.path == note_path || n.note_id == note_path) with
  | none => none
  | some row =>
    some ⟨row.note_id, row.path, row.title, row.modified_at, row.word_count,
      (db.headings.filter (fun h => h.note_id == row.note_id)).mergeSort
        (fun a b => decide (a.start_offset ≤ b.start_offset)),
      get_backlinks db note_path⟩

/-- The candidate notion used by the spec's wording of link resolution: the
target equals the note's path, title, or filename (basename, with or without
extension) under case-sensitive exact comparison. -/
def exactCandidateSpec (t : List Char) (n : NoteRow) : Prop :=
  n.path = t ∨ n.title = t ∨ nameOf n.path = t ∨ stemOf (nameOf n.path) = t

instance (t : List Char) (n : NoteRow) : Decidable (exactCandidateSpec t n) := by
  unfold exactCandidateSpec; infer_instance

/-- Heading rows up to their autoincrement id: text, level and offset. -/
def projH (l : List HeadingRow) : List (List Char × Nat × Nat) :=
  l.map (fun h => (h.heading, h.level, h.start_offset))

/-- Chunk rows up to their heading association: identifier, span and text. -/
def projC (l : List ChunkRow) : List (List Char × Nat × Nat × List Char) :=
  l.map (fun c => (c.chunk_id, c.start_offset, c.end_offset, c.text))

/-- The start position of the j-th paragraph in the original body: every
earlier paragraph contributes its length plus the two separator characters. -/
def posIn (ps : List (List Char)) (j : Nat) : Nat :=
  ((ps.take j).map (fun p => p.length + 2)).sum

/-- Fixture: a 500-character paragraph. -/
def a500 : List Char := List.replicate 500 'a'

/-- Fixture: two 500-character paragraphs, jointly 1002 characters with the
separator. -/
def c4content : List Char := a500 ++ parSep ++ a500

/-- Fixture: a 1001-character paragraph. -/
def a1001 : List Char := List.replicate 1001 'a'

/-- Fixture: a whitespace-only first paragraph, an oversize paragraph, an
empty paragraph and a final paragraph. -/
def c5content : List Char := ' ' :: parSep ++ a1001 ++ parSep ++ parSep ++ ['b']

/-- Fixture: the state after successfully indexing one note. -/
def c1db : DB := (index_note emptyDB "n".data "# H1\n\npara".data "t1".data).1

/-- Fixture: re-indexing the same note with new content while the chunk
replacement step fails. -/
def c1fail : DB × Option IndexResult :=
  index_note_f c1db ⟨false, false, false, true, false⟩ "n".data "## H2\n\nother".data "t2".data

/-- Fixture: note A linking to B, indexed before any note B exists. -/
def c8db1 : DB := (index_note emptyDB "A.md".data "[[B]]".data "t1".data).1

/-- Fixture: note B (title B) indexed afterwards. -/
def c8db2 : DB := (index_note c8db1 "notes/B.md".data "# B".data "t2".data).1

/-- Fixture: note A re-indexed once B exists. -/
def c8db3 : DB := (index_note c8db2 "A.md".data "[[B]]".data "t3".data).1

/-- Fixture: a corpus containing a note titled B. -/
def c9db : DB := (index_note emptyDB "notes/B.md".data "# B".data "t0".data).1

/-- Fixture: indexing a note that links to B while the query inside the
resolver fails. -/
def c9run : DB × Option IndexResult :=
  index_note_f c9db ⟨false, false, false, false, true⟩ "A.md".data "[[B]]".data "t1".data

/-! ## Helper lemmas -/

theorem trimChars_eq_nil_iff (l : List Char) :
    trimChars l = [] ↔ ∀ c ∈ l, isWS c = true := by
  unfold trimChars
  rw [List.reverse_eq_nil_iff, List.dropWhile_eq_nil_iff]
  constructor
  · intro h c hc
    have hl : c ∈ l.takeWhile isWS ++ l.dropWhile isWS := by
      rw [List.takeWhile_append_dropWhile]; exact hc
    rcases List.mem_append.mp hl with h1 | h2
    · exact List.mem_takeWhile_imp h1
    · exact h c (List.mem_reverse.mpr h2)
  · intro h x hx
    rw [List.mem_reverse] at hx
    exact h x ((List.dropWhile_sublist isWS).subset hx)

theorem trimChars_append_right (x p : List Char) (hp : trimChars p ≠ []) :
    trimChars (x ++ p) ≠ [] := by
  intro h
  rw [trimChars_eq_nil_iff] at h
  exact hp ((trimChars_eq_nil_iff p).mpr (fun c hc => h c (List.mem_append_right x hc)))

theorem trimChars_append_left (x p : List Char) (hx : trimChars x ≠ []) :
    trimChars (x ++ p) ≠ [] := by
  intro h
  rw [trimChars_eq_nil_iff] at h
  exact hx ((trimChars_eq_nil_iff x).mpr (fun c hc => h c (List.mem_append_left p hc)))

theorem filter_not_append_idem {α : Type} (l R : List α) (q : α → Bool)
    (hR : ∀ r ∈ R, q r = true) :
    (l.filter (fun x => !(q x)) ++ R).filter (fun x => !(q x)) =
      l.filter (fun x => !(q x)) := by
  rw [List.filter_append, List.filter_filter]
  have h1 : (l.filter fun a => !(q a) && !(q a)) = l.filter (fun x => !(q x)) := by
    apply List.filter_congr; intro a _; cases q a <;> rfl
  have h2 : R.filter (fun x => !(q x)) = [] := by
    rw [List.filter_eq_nil_iff]; intro a ha; simp [hR a ha]
  rw [h1, h2, List.append_nil]

theorem filter_pos_append {α : Type} (l R : List α) (q : α → Bool)
    (hR : ∀ r ∈ R, q r = true) :
    (l.filter (fun x => !(q x)) ++ R).filter q = R := by
  rw [List.filter_append, List.filter_filter]
  have h1 : (l.filter fun a => q a && !(q a)) = [] := by
    rw [List.filter_eq_nil_iff]; intro a _; cases q a <;> simp
  have h2 : R.filter q = R := List.filter_eq_self.mpr hR
  rw [h1, h2, List.nil_append]

/-- The links table after `index_note`: the note's old outbound edges
replaced by the freshly resolved ones, resolution seeing the notes table right
after this call's own upsert. -/
theorem index_note_links (db : DB) (p c m : List Char) :
    (index_note db p c m).1.links =
      db.links.filter (fun l => !(l.src_note == p)) ++
        linkRows (upsert_note db p c m).1.notes p c := rfl

/-- Every link row produced for a note carries that note as source. -/
theorem linkRows_src (resolver : List Char → List Char) (nid content : List Char) :
    ∀ r ∈ linkRowsWith resolver nid content, r.src_note = nid := by
  intro r hr
  unfold linkRowsWith at hr
  rcases List.mem_map.mp hr with ⟨x, _, rfl⟩
  rfl

/-! ## C1: atomicity of an index call -/

/-- C1 counterexample.  The claim says a failed `index(path, content,
modifiedAt)` call leaves the note's previously committed derived state fully
unchanged because all steps run in one transaction.  The code commits each
step separately: re-indexing note `n` with new content while the chunk step
fails returns the error path, yet the headings table already holds the new
headings (it differs from the previous state) while the chunks table still
holds the old chunks - mixed derived state from a failed call. -/
theorem C1_counterexample :
    c1fail.2 = none ∧ c1fail.1.headings ≠ c1db.headings ∧ c1fail.1.chunks = c1db.chunks := by
  refine ⟨rfl, by decide, by decide⟩

/-- C1 (amended): each of the four steps of `index_note` runs in its own
committed transaction.  A failing step rolls back only its own changes and
aborts the call, so tables written by later steps keep their previous rows,
but replacements committed by earlier steps of the same call persist; the
call as a whole is not atomic.  Stated per single failing step: the failure
point determines exactly which prefix of the pipeline is committed. -/
theorem C1_amended (db : DB) (p c m : List Char) :
    (index_note_f db ⟨true, false, false, false, false⟩ p c m = (db, none)) ∧
    ((index_note_f db ⟨false, true, false, false, false⟩ p c m).2 = none ∧
      (index_note_f db ⟨false, true, false, false, false⟩ p c m).1.headings = db.headings ∧
      (index_note_f db ⟨false, true, false, false, false⟩ p c m).1.links = db.links ∧
      (index_note_f db ⟨false, true, false, false, false⟩ p c m).1.chunks = db.chunks ∧
      (index_note_f db ⟨false, true, false, false, false⟩ p c m).1.notes =
        (index_note db p c m).1.notes) ∧
    ((index_note_f db ⟨false, false, true, false, false⟩ p c m).2 = none ∧
      (index_note_f db ⟨false, false, true, false, false⟩ p c m).1.links = db.links ∧
      (index_note_f db ⟨false, false, true, false, false⟩ p c m).1.chunks = db.chunks ∧
      (index_note_f db ⟨false, false, true, false, false⟩ p c m).1.headings =
        (index_note db p c m).1.headings) ∧
    ((index_note_f db ⟨false, false, false, true, false⟩ p c m).2 = none ∧
      (index_note_f db ⟨false, false, false, true, false⟩ p c m).1.chunks = db.chunks ∧
      (index_note_f db ⟨false, false, false, true, false⟩ p c m).1.links =
        (index_note db p c m).1.links) ∧
    index_note_f db noFaults p c m = ((index_note db p c m).1, some (index_note db p c m).2) :=
  ⟨rfl, ⟨rfl, rfl, rfl, rfl, rfl⟩, ⟨rfl, rfl, rfl, rfl⟩, ⟨rfl, rfl, rfl⟩, rfl⟩

/-! ## C2: link target resolution -/

theorem pickBest_eq_none (t : List Char) (cands : List NoteRow) :
    pickBest t cands = none → cands = [] := by
  induction cands using List.reverseRecOn with
  | nil => intro _; rfl
  | append_singleton l a ih =>
    unfold pickBest
    rw [List.foldl_concat]
    intro h
    cases hb : l.foldl (pickStep t) none with
    | none => rw [hb] at h; simp [pickStep] at h
    | some b =>
      rw [hb] at h
      by_cases hr : rankOf t a < rankOf t b <;> simp [pickStep, hr] at h

theorem pickBest_spec (t : List Char) (cands : List NoteRow) :
    ∀ n, pickBest t cands = some n →
      n ∈ cands ∧ ∀ x ∈ cands, rankOf t n ≤ rankOf t x := by
  induction cands using List.reverseRecOn with
  | nil => intro n h; simp [pickBest] at h
  | append_singleton l a ih =>
    intro n h
    unfold pickBest at h
    rw [List.foldl_concat] at h
    cases hb : l.foldl (pickStep t) none with
    | none =>
      rw [hb] at h
      have hl : l = [] := pickBest_eq_none t l hb
      subst hl
      simp only [pickStep, Option.some.injEq] at h
      subst h
      exact ⟨by simp, by intro x hx; simp at hx; subst hx; exact le_refl _⟩
    | some b =>
      rw [hb] at h
      obtain ⟨hbm, hbmin⟩ := ih b hb
      simp only [pickStep] at h
      by_cases hr : rankOf t a < rankOf t b
      · rw [if_pos hr] at h
        simp only [Option.some.injEq] at h
        subst h
        constructor
        · exact List.mem_append_right l (by simp)
        · intro x hx
          rcases List.mem_append.mp hx with hx | hx
          · exact le_of_lt (lt_of_lt_of_le hr (hbmin x hx))
          · simp at hx; subst hx; exact le_refl _
      · rw [if_neg hr] at h
        simp only [Option.some.injEq] at h
        subst h
        constructor
        · exact List.mem_append_left _ hbm
        · intro x hx
          rcases List.mem_append.mp hx with hx | hx
          · exact hbmin x hx
          · simp at hx; subst hx; exact le_of_not_lt hr

/-- C2 counterexample.  The claim says no case-insensitive or non-exact match
is ever admitted as a candidate.  The code's filename clauses use SQLite
`LIKE`, which compares ASCII letters case-insensitively: for the target
`B.md` and a corpus whose only note has path `dir/b.md` and title `T`, no
case-sensitive exact match on path, title, or filename (with or without
extension) exists, yet the resolver admits and returns `dir/b.md`. -/
theorem C2_counterexample :
    resolve_link_target
        [⟨"dir/b.md".data, "dir/b.md".data, "T".data, "t".data, 0⟩] "B.md".data =
      "dir/b.md".data ∧
    ¬ exactCandidateSpec "B.md".data
        ⟨"dir/b.md".data, "dir/b.md".data, "T".data, "t".data, 0⟩ ∧
    "dir/b.md".data ≠ "B.md".data := by
  refine ⟨by decide, by decide, by decide⟩

/-- C2 (amended): the candidate set is given by the SQL `WHERE` clause -
path or title equal to the target (case-sensitive), or path matching
`LIKE '%/' || target` or `LIKE '%/' || target || '.md'`, where `LIKE` is
ASCII-case-insensitive and `%` and `_` inside the target act as wildcards.
Whenever at least one candidate matches, the resolver returns the path of a
candidate of minimal rank under the code's `CASE` ranking: (1) title exact,
(2) path exact, (3) path `LIKE '%/' || target || '.md'` (a stem match, not a
filename-with-extension match), (4) any other match. -/
theorem C2_amended (notes : List NoteRow) (t : List Char)
    (hx : ∃ n ∈ notes, whereMatch t n = true) :
    ∃ n ∈ notes, whereMatch t n = true ∧ resolve_link_target notes t = n.path ∧
      ∀ x ∈ notes, whereMatch t x = true → rankOf t n ≤ rankOf t x := by
  obtain ⟨n0, hn0, hw0⟩ := hx
  have hne : notes.filter (whereMatch t) ≠ [] := by
    intro h
    rw [List.filter_eq_nil_iff] at h
    exact absurd hw0 (by simpa using h n0 hn0)
  cases hp : pickBest t (notes.filter (whereMatch t)) with
  | none => exact absurd (pickBest_eq_none t _ hp) hne
  | some n =>
    obtain ⟨hmem, hmin⟩ := pickBest_spec t _ n hp
    rw [List.mem_filter] at hmem
    refine ⟨n, hmem.1, hmem.2, ?_, ?_⟩
    · unfold resolve_link_target
      rw [hp]
    · intro x hxm hwx
      exact hmin x (List.mem_filter.mpr ⟨hxm, hwx⟩)

/-- C2 witness: a title match at a concrete input. -/
theorem C2_witness :
    ∃ n ∈ [(⟨"notes/B.md".data, "notes/B.md".data, "B".data, "t".data, 1⟩ : NoteRow)],
      whereMatch "B".data n = true ∧
      resolve_link_target
          [⟨"notes/B.md".data, "notes/B.md".data, "B".data, "t".data, 1⟩] "B".data = n.path ∧
      ∀ x ∈ [(⟨"notes/B.md".data, "notes/B.md".data, "B".data, "t".data, 1⟩ : NoteRow)],
        whereMatch "B".data x = true →
          rankOf "B".data n ≤ rankOf "B".data x :=
  C2_amended [⟨"notes/B.md".data, "notes/B.md".data, "B".data, "t".data, 1⟩] "B".data
    (by decide)

/-! ## C3: link deduplication and occurrence counting -/

theorem aggMentions_spec (ms : List (List Char × List Char)) :
    ((aggMentions ms).map (fun r => r.1)).Nodup ∧
    (∀ m ∈ ms, ∃ r ∈ aggMentions ms, r.1 = m.1) ∧
    (∀ r ∈ aggMentions ms,
      r.2.2 = (ms.filter (fun m => m.1 == r.1)).length ∧
      ms.find? (fun m => m.1 == r.1) = some (r.1, r.2.1)) := by
  induction ms using List.reverseRecOn with
  | nil => exact ⟨List.nodup_nil, by simp, by simp [aggMentions]⟩
  | append_singleton ms m ih =>
    obtain ⟨ih1, ih2, ih3⟩ := ih
    have hagg : aggMentions (ms ++ [m]) = addMention (aggMentions ms) m.1 m.2 := by
      unfold aggMentions
      rw [List.foldl_concat]
    by_cases hc : (aggMentions ms).any (fun r => r.1 == m.1)
    · have hadd : addMention (aggMentions ms) m.1 m.2 =
          (aggMentions ms).map
            (fun r => if r.1 == m.1 then (r.1, r.2.1, r.2.2 + 1) else r) := by
        unfold addMention
        rw [if_pos hc]
      rw [hagg, hadd]
      have hbump : ∀ r : List Char × List Char × Nat,
          (if r.1 == m.1 then (r.1, r.2.1, r.2.2 + 1) else r).1 = r.1 := by
        intro r
        split <;> rfl
      have hkeys : ((aggMentions ms).map
            (fun r => if r.1 == m.1 then (r.1, r.2.1, r.2.2 + 1) else r)).map
              (fun r => r.1) =
          (aggMentions ms).map (fun r => r.1) := by
        rw [List.map_map]
        exact List.map_congr_left (fun r _ => hbump r)
      refine ⟨by rw [hkeys]; exact ih1, ?_, ?_⟩
      · intro m2 hm2
        rcases List.mem_append.mp hm2 with hm2 | hm2
        · obtain ⟨r, hr, hk⟩ := ih2 m2 hm2
          exact ⟨if r.1 == m.1 then (r.1, r.2.1, r.2.2 + 1) else r,
            List.mem_map_of_mem _ hr, (hbump r).trans hk⟩
        · simp only [List.mem_singleton] at hm2
          obtain ⟨r, hr, hk⟩ := List.any_eq_true.mp hc
          exact ⟨if r.1 == m.1 then (r.1, r.2.1, r.2.2 + 1) else r,
            List.mem_map_of_mem _ hr,
            (hbump r).trans ((eq_of_beq hk).trans (congrArg Prod.fst hm2).symm)⟩
      · intro r2 hr2
        obtain ⟨r, hr, rfl⟩ := List.mem_map.mp hr2
        obtain ⟨hcount, hfind⟩ := ih3 r hr
        by_cases h : (r.1 == m.1) = true
        · have hkeq : r.1 = m.1 := eq_of_beq h
          have hm1 : (m.1 == r.1) = true := by rw [beq_iff_eq, hkeq]
          rw [if_pos h]
          constructor
          · simp only [List.filter_append, List.length_append]
            simp [hm1, hcount]
          · rw [List.find?_append, hfind]
            rfl
        · have hne : r.1 ≠ m.1 := by
            intro hh
            exact h (by rw [beq_iff_eq]; exact hh)
          have hm1 : (m.1 == r.1) = false := by
            rw [beq_eq_false_iff_ne]
            exact fun hh => hne hh.symm
          rw [if_neg h]
          constructor
          · simp only [List.filter_append, List.length_append]
            simp [hm1, hcount]
          · rw [List.find?_append, hfind]
            rfl
    · have hnone : ∀ r ∈ aggMentions ms, (r.1 == m.1) = false := by
        intro r hr
        rcases Bool.eq_false_or_eq_true (r.1 == m.1) with h | h
        · exact absurd (List.any_eq_true.mpr ⟨r, hr, h⟩) hc
        · exact h
      have hnoms : ∀ m2 ∈ ms, (m2.1 == m.1) = false := by
        intro m2 hm2
        rcases Bool.eq_false_or_eq_true (m2.1 == m.1) with h | h
        · obtain ⟨r, hr, hk⟩ := ih2 m2 hm2
          have hcontra : (r.1 == m.1) = true := by rw [hk]; exact h
          rw [hnone r hr] at hcontra
          exact absurd hcontra (by simp)
        · exact h
      have hadd : addMention (aggMentions ms) m.1 m.2 =
          aggMentions ms ++ [(m.1, m.2, 1)] := by
        unfold addMention
        rw [if_neg ?_]
        rw [Bool.not_eq_true, List.any_eq_false]
        intro r hr
        simp [hnone r hr]
      rw [hagg, hadd]
      refine ⟨?_, ?_, ?_⟩
      · rw [List.map_append, List.nodup_append]
        refine ⟨ih1, List.nodup_singleton _, ?_⟩
        intro k hk hk2
        simp only [List.map_cons, List.map_nil, List.mem_singleton] at hk2
        subst hk2
        obtain ⟨r, hr, hk⟩ := List.mem_map.mp hk
        have hcontra : (r.1 == m.1) = true := by rw [hk]; exact beq_self_eq_true _
        rw [hnone r hr] at hcontra
        exact absurd hcontra (by simp)
      · intro m2 hm2
        rcases List.mem_append.mp hm2 with hm2 | hm2
        · obtain ⟨r, hr, hk⟩ := ih2 m2 hm2
          exact ⟨r, List.mem_append_left _ hr, hk⟩
        · simp only [List.mem_singleton] at hm2
          exact ⟨(m.1, m.2, 1), List.mem_append_right _ (by simp),
            (congrArg Prod.fst hm2).symm⟩
      · intro r2 hr2
        rcases List.mem_append.mp hr2 with hr2 | hr2
        · obtain ⟨hcount, hfind⟩ := ih3 r2 hr2
          have hne : r2.1 ≠ m.1 := by
            intro hh
            have hcontra : (r2.1 == m.1) = true := by rw [beq_iff_eq]; exact hh
            rw [hnone r2 hr2] at hcontra
            exact absurd hcontra (by simp)
          have hm1 : (m.1 == r2.1) = false := by
            rw [beq_eq_false_iff_ne]
            exact fun hh => hne hh.symm
          constructor
          · simp only [List.filter_append, List.length_append]
            simp [hm1, hcount]
          · rw [List.find?_append, hfind]
            rfl
        · simp only [List.mem_singleton] at hr2
          subst hr2
          have hflt : ms.filter (fun x => x.1 == m.1) = [] := by
            rw [List.filter_eq_nil_iff]
            intro a ha
            simp [hnoms a ha]
          have hfnd : ms.find? (fun x => x.1 == m.1) = none := by
            rw [List.find?_eq_none]
            intro a ha
            simp [hnoms a ha]
          constructor
          · simp only [List.filter_append, List.length_append, hflt]
            simp
          · rw [List.find?_append, hfnd]
            simp

/-- C3.  For every corpus and note body: the stored link rows have pairwise
distinct destinations; every mention's resolved destination has a row; and
each row carries the source note id, an occurrence count equal to the number
of mentions resolving to its destination, and the display text of the first
such mention in document order (so later occurrences only increment the
counter and never overwrite the display text). -/
theorem C3_link_dedup (notes : List NoteRow) (note_id content : List Char) :
    ((linkRows notes note_id content).map (fun r => r.dst_note)).Nodup ∧
    (∀ m ∈ mentionsOf notes content,
      ∃ r ∈ linkRows notes note_id content, r.dst_note = m.1) ∧
    (∀ r ∈ linkRows notes note_id content,
      r.src_note = note_id ∧
      r.occurrences =
        ((mentionsOf notes content).filter (fun m => m.1 == r.dst_note)).length ∧
      (mentionsOf notes content).find? (fun m => m.1 == r.dst_note) =
        some (r.dst_note, r.link_text)) := by
  obtain ⟨h1, h2, h3⟩ := aggMentions_spec (mentionsOf notes content)
  have hrows : linkRows notes note_id content =
      (aggMentions (mentionsOf notes content)).map
        (fun r => (⟨note_id, r.1, r.2.1, r.2.2⟩ : LinkRow)) := rfl
  refine ⟨?_, ?_, ?_⟩
  · rw [hrows, List.map_map]
    exact h1
  · intro m hm
    obtain ⟨r, hr, hk⟩ := h2 m hm
    exact ⟨⟨note_id, r.1, r.2.1, r.2.2⟩, List.mem_map_of_mem _ hr, hk⟩
  · intro r hr
    rw [hrows] at hr
    obtain ⟨x, hx, rfl⟩ := List.mem_map.mp hr
    obtain ⟨hcount, hfind⟩ := h3 x hx
    exact ⟨rfl, hcount, hfind⟩

/-- C3 witness: two mentions resolving to B produce one row with count 2 and
the first occurrence's display text. -/
theorem C3_witness :
    ((linkRows [] "A".data "[[B]] and [[B|Alias]]".data).map (fun r => r.dst_note)).Nodup ∧
    (⟨"A".data, "B".data, "B".data, 2⟩ : LinkRow).occurrences =
      ((mentionsOf [] "[[B]] and [[B|Alias]]".data).filter
        (fun m => m.1 == (⟨"A".data, "B".data, "B".data, 2⟩ : LinkRow).dst_note)).length ∧
    (mentionsOf [] "[[B]] and [[B|Alias]]".data).find?
        (fun m => m.1 == (⟨"A".data, "B".data, "B".data, 2⟩ : LinkRow).dst_note) =
      some ((⟨"A".data, "B".data, "B".data, 2⟩ : LinkRow).dst_note,
        (⟨"A".data, "B".data, "B".data, 2⟩ : LinkRow).link_text) :=
  ⟨(C3_link_dedup [] "A".data "[[B]] and [[B|Alias]]".data).1,
    ((C3_link_dedup [] "A".data "[[B]] and [[B|Alias]]".data).2.2
      ⟨"A".data, "B".data, "B".data, 2⟩ (by decide)).2.1,
    ((C3_link_dedup [] "A".data "[[B]] and [[B|Alias]]".data).2.2
      ⟨"A".data, "B".data, "B".data, 2⟩ (by decide)).2.2⟩

/-! ## C4: the chunk size bound -/

theorem chunkGo_size (nid : List Char) (hs : List HeadingRow) (ps0 : List (List Char)) :
    ∀ (ps : List (List Char)) (cur : List Char) (start off : Nat),
      (cur.length ≤ maxChunkSize + 2 ∨ cur ∈ ps0) → (∀ p ∈ ps, p ∈ ps0) →
      ∀ ch ∈ chunkGo nid hs ps cur start off,
        ch.text.length ≤ maxChunkSize + 2 ∨ ch.text ∈ ps0 := by
  intro ps
  induction ps with
  | nil =>
    intro cur start off hcur _ ch hch
    unfold chunkGo at hch
    by_cases ht : (trimChars cur).length ≠ 0
    · rw [if_pos ht] at hch
      simp only [List.mem_singleton] at hch
      subst hch
      exact hcur
    · rw [if_neg ht] at hch
      simp at hch
  | cons p ps ih =>
    intro cur start off hcur hps ch hch
    unfold chunkGo at hch
    by_cases h1 : cur.length ≠ 0 ∧ maxChunkSize < cur.length + p.length
    · rw [if_pos h1] at hch
      rcases List.mem_cons.mp hch with hch | hch
      · subst hch
        exact hcur
      · exact ih p off (off + p.length + 2) (Or.inr (hps p (List.mem_cons_self p ps)))
          (fun q hq => hps q (List.mem_cons_of_mem p hq)) ch hch
    · rw [if_neg h1] at hch
      by_cases h2 : cur.length ≠ 0
      · rw [if_pos h2] at hch
        refine ih (cur ++ parSep ++ p) start (off + p.length + 2) (Or.inl ?_)
          (fun q hq => hps q (List.mem_cons_of_mem p hq)) ch hch
        have hle : cur.length + p.length ≤ maxChunkSize := by
          rcases not_and_or.mp h1 with h | h
          · exact absurd h2 h
          · omega
        simp only [List.length_append, parSep, List.length_cons, List.length_nil]
        omega
      · rw [if_neg h2] at hch
        exact ih p off (off + p.length + 2) (Or.inr (hps p (List.mem_cons_self p ps)))
          (fun q hq => hps q (List.mem_cons_of_mem p hq)) ch hch

set_option maxRecDepth 100000 in
/-- C4 counterexample.  The claim says the accumulated chunk length stays at
or below 1000 and no stored multi-paragraph chunk is longer than 1000
characters.  The code's check `len(current_chunk) + len(paragraph) > 1000`
ignores the two separator characters added by the append: two 500-character
paragraphs pass the check and are stored as one 1002-character chunk. -/
theorem C4_counterexample :
    chunkRowsOf "n".data c4content [] =
      [⟨"n:0".data, "n".data, none, 0, 1004, a500 ++ parSep ++ a500⟩] ∧
    (a500 ++ parSep ++ a500).length = 1002 := by
  refine ⟨by decide, by decide⟩

/-- C4 (amended): the flush happens just before a paragraph whose length plus
the pending chunk's length (the two-character separator not counted) would
exceed 1000.  Consequently every stored chunk either is a single paragraph of
the body (a single paragraph is never split, however long) or is at most
1002 characters long - the bound is 1002, not 1000, because the final
append's separator is not counted by the check. -/
theorem C4_amended (note_id content : List Char) (headings : List HeadingRow) :
    ∀ ch ∈ chunkRowsOf note_id content headings,
      ch.text.length ≤ maxChunkSize + 2 ∨ ch.text ∈ splitPar content := by
  intro ch hch
  exact chunkGo_size note_id headings (splitPar content) (splitPar content) [] 0 0
    (Or.inl (by simp [maxChunkSize])) (fun p hp => hp) ch hch

/-- C4 witness: the singleton chunk of a two-character body. -/
theorem C4_witness :
    (⟨"n:0".data, "n".data, none, 0, 4, "hi".data⟩ : ChunkRow).text.length ≤
        maxChunkSize + 2 ∨
      (⟨"n:0".data, "n".data, none, 0, 4, "hi".data⟩ : ChunkRow).text ∈
        splitPar "hi".data :=
  C4_amended "n".data "hi".data [] ⟨"n:0".data, "n".data, none, 0, 4, "hi".data⟩ (by decide)

/-! ## C5: chunk span structure -/

theorem length_ne_zero_iff (l : List Char) : l.length ≠ 0 ↔ l ≠ [] :=
  not_congr List.length_eq_zero

theorem splitPar_sep (rest : List Char) :
    splitPar ('\n' :: '\n' :: rest) = [] :: splitPar rest := rfl

theorem splitPar_cons (c : Char) (rest : List Char)
    (h : ∀ r2, c = '\n' → rest = '\n' :: r2 → False) :
    splitPar (c :: rest) =
      match splitPar rest with
      | [] => [[c]]
      | g :: gs => (c :: g) :: gs := by
  rw [splitPar.eq_def]
  split
  · rename_i heq
    simp at heq
  · rename_i x rest2 heq
    injection heq with h1 h2
    exact (h rest2 h1 h2).elim
  · rename_i x1 c2 rest2 hx heq
    injection heq with h1 h2
    subst h1
    subst h2
    rfl

theorem splitPar_ne_nil (l : List Char) : splitPar l ≠ [] := by
  induction l using splitPar.induct with
  | case1 => simp [splitPar]
  | case2 rest ih => simp [splitPar_sep]
  | case3 c rest hne hnil ih =>
    rw [splitPar_cons c rest hne, hnil]
    simp
  | case4 c rest hne g gs hg ih =>
    rw [splitPar_cons c rest hne, hg]
    simp

theorem joinPar_single (g : List Char) : joinPar [g] = g := by
  simp [joinPar, List.intercalate]

theorem joinPar_cons_cons (g g2 : List Char) (gs : List (List Char)) :
    joinPar (g :: g2 :: gs) = g ++ parSep ++ joinPar (g2 :: gs) := by
  simp [joinPar, List.intercalate, List.intersperse_cons_cons, List.append_assoc]

theorem joinPar_splitPar (l : List Char) : joinPar (splitPar l) = l := by
  induction l using splitPar.induct with
  | case1 =>
    rw [show splitPar [] = [[]] from rfl, joinPar_single]
  | case2 rest ih =>
    rw [splitPar_sep]
    obtain ⟨g, gs, hg⟩ : ∃ g gs, splitPar rest = g :: gs := by
      cases hsp : splitPar rest with
      | nil => exact absurd hsp (splitPar_ne_nil rest)
      | cons g gs => exact ⟨g, gs, rfl⟩
    have ih2 : joinPar (g :: gs) = rest := by rw [hg] at ih; exact ih
    rw [hg, joinPar_cons_cons, ih2]
    simp [parSep]
  | case3 c rest hne hnil ih =>
    exact absurd hnil (splitPar_ne_nil rest)
  | case4 c rest hne g gs hg ih =>
    have ih2 : joinPar (g :: gs) = rest := by rw [hg] at ih; exact ih
    rw [splitPar_cons c rest hne, hg, ← ih2]
    cases gs with
    | nil =>
      rw [joinPar_single, joinPar_single]
    | cons g2 gs2 =>
      rw [joinPar_cons_cons, joinPar_cons_cons]
      simp [List.cons_append, List.append_assoc]

theorem posIn_zero (ps : List (List Char)) : posIn ps 0 = 0 := rfl

theorem posIn_cons_succ (p : List Char) (ps : List (List Char)) (j : Nat) :
    posIn (p :: ps) (j + 1) = p.length + 2 + posIn ps j := by
  unfold posIn
  rw [List.take_succ_cons, List.map_cons, List.sum_cons]

/-- The j-th paragraph occupies exactly the span starting at its bookkeeping
position inside the rejoined body. -/
theorem joinPar_drop_take :
    ∀ (gs : List (List Char)) (j : Nat) (hj : j < gs.length),
      ((joinPar gs).drop (posIn gs j)).take ((gs.get ⟨j, hj⟩).length) = gs.get ⟨j, hj⟩ := by
  intro gs
  induction gs with
  | nil => intro j hj; simp at hj
  | cons g gs ih =>
    intro j hj
    cases j with
    | zero =>
      rw [posIn_zero, List.drop_zero]
      show (joinPar (g :: gs)).take g.length = g
      cases gs with
      | nil =>
        rw [joinPar_single]
        exact List.take_length g
      | cons g2 gs2 =>
        rw [joinPar_cons_cons, List.append_assoc]
        exact List.take_left g _
    | succ j =>
      have hj2 : j < gs.length := by simpa using hj
      have hgs : gs ≠ [] := by
        intro h
        rw [h] at hj2
        simp at hj2
      obtain ⟨g2, gs2, rfl⟩ : ∃ g2 gs2, gs = g2 :: gs2 := by
        cases gs with
        | nil => exact absurd rfl hgs
        | cons a b => exact ⟨a, b, rfl⟩
      rw [joinPar_cons_cons, posIn_cons_succ, List.append_assoc]
      have harr : g.length + 2 + posIn (g2 :: gs2) j =
          g.length + (2 + posIn (g2 :: gs2) j) := by omega
      rw [harr, List.drop_append]
      have h2 : (2 : Nat) + posIn (g2 :: gs2) j = parSep.length + posIn (g2 :: gs2) j := rfl
      rw [h2, List.drop_append]
      exact ih j hj2

/-- Ordering invariant of the chunk loop: emitted spans are non-overlapping
in order, non-degenerate, and start no earlier than the pending chunk's start
(or the running offset when nothing is pending). -/
theorem chunkGo_spans (nid : List Char) (hs : List HeadingRow) :
    ∀ (ps : List (List Char)) (cur : List Char) (start off : Nat),
      (cur.length ≠ 0 → start + cur.length + 2 = off) →
      List.Chain' (fun a b => a.end_offset ≤ b.start_offset)
          (chunkGo nid hs ps cur start off) ∧
      ∀ ch ∈ chunkGo nid hs ps cur start off,
        (if cur.length = 0 then off else start) ≤ ch.start_offset ∧
        ch.start_offset < ch.end_offset := by
  intro ps
  induction ps with
  | nil =>
    intro cur start off h1
    unfold chunkGo
    by_cases ht : (trimChars cur).length ≠ 0
    · rw [if_pos ht]
      have hcur : cur.length ≠ 0 := by
        intro hz
        rw [List.length_eq_zero] at hz
        subst hz
        exact ht rfl
      have hoff := h1 hcur
      refine ⟨List.chain'_singleton _, ?_⟩
      intro ch hch
      rw [List.mem_singleton] at hch
      subst hch
      rw [if_neg hcur]
      exact ⟨le_refl _, show start < off by omega⟩
    · rw [if_neg ht]
      exact ⟨List.chain'_nil, by intro ch hch; simp at hch⟩
  | cons p ps ih =>
    intro cur start off h1
    unfold chunkGo
    by_cases hf : cur.length ≠ 0 ∧ maxChunkSize < cur.length + p.length
    · rw [if_pos hf]
      obtain ⟨ihc, ihm⟩ := ih p off (off + p.length + 2) (fun _ => rfl)
      have hoff := h1 hf.1
      constructor
      · rw [List.chain'_cons']
        refine ⟨?_, ihc⟩
        intro y hy
        have hym := List.mem_of_mem_head? hy
        have hlo := (ihm y hym).1
        show off ≤ y.start_offset
        by_cases hp : p.length = 0
        · rw [if_pos hp] at hlo; omega
        · rw [if_neg hp] at hlo; omega
      · intro ch hch
        rcases List.mem_cons.mp hch with hch | hch
        · subst hch
          rw [if_neg hf.1]
          exact ⟨le_refl _, show start < off by omega⟩
        · obtain ⟨hlo, hlt⟩ := ihm ch hch
          rw [if_neg hf.1]
          refine ⟨?_, hlt⟩
          by_cases hp : p.length = 0
          · rw [if_pos hp] at hlo; omega
          · rw [if_neg hp] at hlo; omega
    · rw [if_neg hf]
      by_cases h2 : cur.length ≠ 0
      · rw [if_pos h2]
        have hoff := h1 h2
        have harg : (cur ++ parSep ++ p).length ≠ 0 →
            start + (cur ++ parSep ++ p).length + 2 = off + p.length + 2 := by
          intro _
          simp only [List.length_append, parSep, List.length_cons, List.length_nil]
          omega
        obtain ⟨ihc, ihm⟩ := ih (cur ++ parSep ++ p) start (off + p.length + 2) harg
        refine ⟨ihc, ?_⟩
        intro ch hch
        obtain ⟨hlo, hlt⟩ := ihm ch hch
        have hne : (cur ++ parSep ++ p).length ≠ 0 := by
          simp only [List.length_append, parSep, List.length_cons, List.length_nil]
          omega
        rw [if_neg hne] at hlo
        rw [if_neg h2]
        exact ⟨hlo, hlt⟩
      · rw [if_neg h2]
        obtain ⟨ihc, ihm⟩ := ih p off (off + p.length + 2) (fun _ => rfl)
        have hz : cur.length = 0 := by omega
        refine ⟨ihc, ?_⟩
        intro ch hch
        obtain ⟨hlo, hlt⟩ := ihm ch hch
        rw [if_pos hz]
        refine ⟨?_, hlt⟩
        by_cases hp : p.length = 0
        · rw [if_pos hp] at hlo; omega
        · rw [if_neg hp] at hlo; omega

/-- Coverage invariant of the chunk loop: a non-blank pending chunk is
eventually flushed as a chunk starting at its start offset and extending at
least to the current offset (minus the trailing separator), and every
non-blank remaining paragraph ends up inside some emitted span. -/
theorem chunkGo_cover (nid : List Char) (hs : List HeadingRow) :
    ∀ (ps : List (List Char)) (cur : List Char) (start off : Nat),
      (cur.length ≠ 0 → start + cur.length + 2 = off) →
      ((trimChars cur).length ≠ 0 →
        ∃ ch ∈ chunkGo nid hs ps cur start off,
          ch.start_offset = start ∧ off ≤ ch.end_offset + 2) ∧
      (∀ j (hj : j < ps.length), (trimChars (ps.get ⟨j, hj⟩)).length ≠ 0 →
        ∃ ch ∈ chunkGo nid hs ps cur start off,
          ch.start_offset ≤ off + posIn ps j ∧
          off + posIn ps j + (ps.get ⟨j, hj⟩).length ≤ ch.end_offset) := by
  intro ps
  induction ps with
  | nil =>
    intro cur start off h1
    constructor
    · intro ht
      refine ⟨mkChunk nid hs cur start off, ?_, rfl, show off ≤ off + 2 by omega⟩
      unfold chunkGo
      rw [if_pos ht]
      exact List.mem_singleton_self _
    · intro j hj
      simp at hj
  | cons p ps ih =>
    intro cur start off h1
    by_cases hf : cur.length ≠ 0 ∧ maxChunkSize < cur.length + p.length
    · have hgo : chunkGo nid hs (p :: ps) cur start off =
          mkChunk nid hs cur start off ::
            chunkGo nid hs ps p off (off + p.length + 2) := by
        simp only [chunkGo]
        rw [if_pos hf]
      obtain ⟨ihA, ihB⟩ := ih p off (off + p.length + 2) (fun _ => rfl)
      constructor
      · intro ht
        rw [hgo]
        exact ⟨mkChunk nid hs cur start off, List.mem_cons_self _ _, rfl,
          show off ≤ off + 2 by omega⟩
      · intro j hj hjt
        rw [hgo]
        cases j with
        | zero =>
          obtain ⟨ch, hchm, hcs, hce⟩ := ihA hjt
          refine ⟨ch, List.mem_cons_of_mem _ hchm, ?_, ?_⟩
          · rw [hcs, posIn_zero]
            omega
          · rw [posIn_zero]
            show off + 0 + p.length ≤ ch.end_offset
            omega
        | succ j =>
          have hj2 : j < ps.length := by simpa using hj
          obtain ⟨ch, hchm, hcs, hce⟩ := ihB j hj2 hjt
          have hpos := posIn_cons_succ p ps j
          have hget : (((p :: ps).get ⟨j + 1, hj⟩)).length = (ps.get ⟨j, hj2⟩).length := rfl
          refine ⟨ch, List.mem_cons_of_mem _ hchm, by omega, by omega⟩
    · by_cases h2 : cur.length ≠ 0
      · have hgo : chunkGo nid hs (p :: ps) cur start off =
            chunkGo nid hs ps (cur ++ parSep ++ p) start (off + p.length + 2) := by
          simp only [chunkGo]
          rw [if_neg hf, if_pos h2]
        have hoff := h1 h2
        have harg : (cur ++ parSep ++ p).length ≠ 0 →
            start + (cur ++ parSep ++ p).length + 2 = off + p.length + 2 := by
          intro _
          simp only [List.length_append, parSep, List.length_cons, List.length_nil]
          omega
        obtain ⟨ihA, ihB⟩ := ih (cur ++ parSep ++ p) start (off + p.length + 2) harg
        constructor
        · intro ht
          rw [hgo]
          have ht2 : (trimChars (cur ++ parSep ++ p)).length ≠ 0 := by
            rw [length_ne_zero_iff] at ht ⊢
            exact trimChars_append_left _ p (trimChars_append_left cur parSep ht)
          obtain ⟨ch, hchm, hcs, hce⟩ := ihA ht2
          exact ⟨ch, hchm, hcs, by omega⟩
        · intro j hj hjt
          rw [hgo]
          cases j with
          | zero =>
            have ht2 : (trimChars (cur ++ parSep ++ p)).length ≠ 0 := by
              rw [length_ne_zero_iff]
              rw [length_ne_zero_iff] at hjt
              exact trimChars_append_right _ p hjt
            obtain ⟨ch, hchm, hcs, hce⟩ := ihA ht2
            refine ⟨ch, hchm, ?_, ?_⟩
            · rw [hcs, posIn_zero]
              omega
            · rw [posIn_zero]
              show off + 0 + p.length ≤ ch.end_offset
              omega
          | succ j =>
            have hj2 : j < ps.length := by simpa using hj
            obtain ⟨ch, hchm, hcs, hce⟩ := ihB j hj2 hjt
            have hpos := posIn_cons_succ p ps j
            have hget : (((p :: ps).get ⟨j + 1, hj⟩)).length = (ps.get ⟨j, hj2⟩).length := rfl
            exact ⟨ch, hchm, by omega, by omega⟩
      · have hgo : chunkGo nid hs (p :: ps) cur start off =
            chunkGo nid hs ps p off (off + p.length + 2) := by
          simp only [chunkGo]
          rw [if_neg hf, if_neg h2]
        obtain ⟨ihA, ihB⟩ := ih p off (off + p.length + 2) (fun _ => rfl)
        constructor
        · intro ht
          have hz : cur = [] := by
            rw [← List.length_eq_zero]
            omega
          subst hz
          exact absurd rfl ht
        · intro j hj hjt
          rw [hgo]
          cases j with
          | zero =>
            obtain ⟨ch, hchm, hcs, hce⟩ := ihA hjt
            refine ⟨ch, hchm, ?_, ?_⟩
            · rw [hcs, posIn_zero]
              omega
            · rw [posIn_zero]
              show off + 0 + p.length ≤ ch.end_offset
              omega
          | succ j =>
            have hj2 : j < ps.length := by simpa using hj
            obtain ⟨ch, hchm, hcs, hce⟩ := ihB j hj2 hjt
            have hpos := posIn_cons_succ p ps j
            have hget : (((p :: ps).get ⟨j + 1, hj⟩)).length = (ps.get ⟨j, hj2⟩).length := rfl
            exact ⟨ch, hchm, by omega, by omega⟩

set_option maxRecDepth 400000 in
/-- C5 counterexample.  The claim says every chunk whose text is only
whitespace after trimming is discarded, and that spans are contiguous.  Only
the final pending chunk is checked for blankness: a whitespace-only chunk
flushed mid-stream is stored (the first stored chunk below is the single
space), and an empty paragraph consumed right after a flush leaves a gap, so
consecutive spans need not touch (1006 versus 1008 below). -/
theorem C5_counterexample :
    (chunkRowsOf "n".data c5content []).map
        (fun ch => (ch.start_offset, ch.end_offset, ch.text)) =
      [(0, 3, [' ']), (3, 1006, a1001), (1008, 1011, ['b'])] ∧
    trimChars [' '] = [] := by
  refine ⟨by decide, by decide⟩

/-- C5 (amended): for every note body the stored chunk spans are in document
order and non-overlapping (consecutive spans may leave a gap, which can only
span empty paragraphs), every span is non-degenerate, and every paragraph of
the body that is not whitespace-only lies inside some stored span, the span
positions agreeing with the actual paragraph positions in the body.  Only the
final pending chunk is subject to the blank check, so whitespace-only chunks
flushed mid-stream are stored rather than discarded. -/
theorem C5_amended (note_id content : List Char) (headings : List HeadingRow) :
    List.Chain' (fun a b => a.end_offset ≤ b.start_offset)
        (chunkRowsOf note_id content headings) ∧
    (∀ ch ∈ chunkRowsOf note_id content headings, ch.start_offset < ch.end_offset) ∧
    (∀ j (hj : j < (splitPar content).length),
      (trimChars ((splitPar content).get ⟨j, hj⟩)).length ≠ 0 →
      (content.drop (posIn (splitPar content) j)).take
          (((splitPar content).get ⟨j, hj⟩).length) = (splitPar content).get ⟨j, hj⟩ ∧
      ∃ ch ∈ chunkRowsOf note_id content headings,
        ch.start_offset ≤ posIn (splitPar content) j ∧
        posIn (splitPar content) j + ((splitPar content).get ⟨j, hj⟩).length ≤
          ch.end_offset) := by
  have h1 : ([] : List Char).length ≠ 0 → 0 + ([] : List Char).length + 2 = 0 := by
    intro h
    simp at h
  obtain ⟨hchain, hmem⟩ := chunkGo_spans note_id headings (splitPar content) [] 0 0 h1
  obtain ⟨hA, hB⟩ := chunkGo_cover note_id headings (splitPar content) [] 0 0 h1
  refine ⟨hchain, fun ch hch => (hmem ch hch).2, ?_⟩
  intro j hj hjt
  constructor
  · have := joinPar_drop_take (splitPar content) j hj
    rw [joinPar_splitPar] at this
    exact this
  · obtain ⟨ch, hchm, hcs, hce⟩ := hB j hj hjt
    exact ⟨ch, hchm, by omega, by omega⟩

/-- C5 witness: the single chunk of a two-paragraph body covers its first
paragraph. -/
theorem C5_witness :
    ("ab\n\ncd".data.drop (posIn (splitPar "ab\n\ncd".data) 0)).take
        (((splitPar "ab\n\ncd".data).get ⟨0, by decide⟩).length) =
      (splitPar "ab\n\ncd".data).get ⟨0, by decide⟩ ∧
    ∃ ch ∈ chunkRowsOf "n".data "ab\n\ncd".data [],
      ch.start_offset ≤ posIn (splitPar "ab\n\ncd".data) 0 ∧
      posIn (splitPar "ab\n\ncd".data) 0 +
        ((splitPar "ab\n\ncd".data).get ⟨0, by decide⟩).length ≤ ch.end_offset :=
  (C5_amended "n".data "ab\n\ncd".data []).2.2 0 (by decide) (by decide)

/-! ## C6: chunk-to-heading association -/

theorem fhFold_eq_argmax (c : Nat) (hs : List HeadingRow) :
    hs.foldl (fhStep c) (none, none) =
      ((hs.filter (fun h => decide (h.start_offset ≤ c))).argmax (fun h => h.start_offset),
        ((hs.filter (fun h => decide (h.start_offset ≤ c))).argmax
          (fun h => h.start_offset)).map (fun h => c - h.start_offset)) := by
  induction hs using List.reverseRecOn with
  | nil => rfl
  | append_singleton l a ih =>
    rw [List.foldl_concat, ih, List.filter_append]
    by_cases hle : a.start_offset ≤ c
    · have hfa : List.filter (fun h => decide (h.start_offset ≤ c)) [a] = [a] := by
        simp [hle]
      rw [hfa, List.argmax_concat]
      have hd : ((a.start_offset : Int) - (c : Int)).natAbs = c - a.start_offset := by omega
      cases hA : (l.filter (fun h => decide (h.start_offset ≤ c))).argmax
          (fun h => h.start_offset) with
      | none =>
        simp [fhStep, hle, hd]
      | some b =>
        have hble : b.start_offset ≤ c := by
          have hbmem : b ∈ l.filter (fun h => decide (h.start_offset ≤ c)) :=
            List.argmax_mem (by rw [hA]; exact rfl)
          simpa using (List.mem_filter.mp hbmem).2
        by_cases hba : b.start_offset < a.start_offset
        · have hdlt : c - a.start_offset < c - b.start_offset := by omega
          simp [fhStep, hle, hd, hba, hdlt]
        · have hdge : ¬ (c - a.start_offset < c - b.start_offset) := by omega
          simp [fhStep, hle, hd, hba, hdge]
    · have hfa : List.filter (fun h => decide (h.start_offset ≤ c)) [a] = [] := by
        simp [hle]
      rw [hfa, List.append_nil]
      simp [fhStep, hle]

/-- C6 counterexample.  The claim says that when two headings share the same
offset the later-inserted one wins.  The loop replaces the incumbent only on
a strictly smaller distance, so on equal offsets the earlier-inserted heading
is kept: with headings id 1 and id 2 both at offset 5 and a chunk starting at
5, the code associates id 1, not id 2. -/
theorem C6_counterexample :
    find_heading_for_chunk
        [⟨1, "n".data, "h".data, 1, 5⟩, ⟨2, "n".data, "h".data, 1, 5⟩] 5 = some 1 ∧
    find_heading_for_chunk
        [⟨1, "n".data, "h".data, 1, 5⟩, ⟨2, "n".data, "h".data, 1, 5⟩] 5 ≠ some 2 := by
  refine ⟨by decide, by decide⟩

/-- C6 (amended): each chunk is associated with the heading whose start
offset is greatest among those at most the chunk's start offset - exactly the
first maximal such heading in insertion order, so on a shared offset the
earlier-inserted heading wins, not the later one; with no heading at or
before the chunk start there is no association.  The spec's concrete example
holds: with headings at offsets 0, 40 and 60, a chunk starting at 50 is
associated with the heading at offset 40. -/
theorem C6_amended :
    (∀ (hs : List HeadingRow) (c : Nat),
      find_heading_for_chunk hs c =
        ((hs.filter (fun h => decide (h.start_offset ≤ c))).argmax
          (fun h => h.start_offset)).map (fun h => h.id)) ∧
    find_heading_for_chunk
      [⟨1, "n".data, "a".data, 1, 0⟩, ⟨2, "n".data, "b".data, 1, 40⟩,
        ⟨3, "n".data, "c".data, 1, 60⟩] 50 = some 2 := by
  constructor
  · intro hs c
    unfold find_heading_for_chunk
    rw [fhFold_eq_argmax]
  · decide

/-! ## C7: idempotence of indexing -/

theorem index_note_notes (db : DB) (p c m : List Char) :
    (index_note db p c m).1.notes = (upsert_note db p c m).1.notes := rfl

theorem upsert_note_notes (db : DB) (p c m : List Char) :
    (upsert_note db p c m).1.notes =
      db.notes.filter (fun n => !(n.note_id == p)) ++
        [⟨p, p, extract_title c p, m, word_count c⟩] := rfl

theorem index_note_headings (db : DB) (p c m : List Char) :
    (index_note db p c m).1.headings =
      db.headings.filter (fun h => !(h.note_id == p)) ++
        genHeadingRows p c db.nextHeadingId := rfl

theorem index_note_chunks (db : DB) (p c m : List Char) :
    (index_note db p c m).1.chunks =
      db.chunks.filter (fun ch => !(ch.note_id == p)) ++
        chunkRowsOf p c (genHeadingRows p c db.nextHeadingId) := rfl

theorem genHeadingRows_note_id (nid c : List Char) (i : Nat) :
    ∀ r ∈ genHeadingRows nid c i, r.note_id = nid := by
  intro r hr
  unfold genHeadingRows at hr
  obtain ⟨e, _, rfl⟩ := List.mem_map.mp hr
  rfl

theorem chunkGo_note_id (nid : List Char) (hs : List HeadingRow) :
    ∀ (ps : List (List Char)) (cur : List Char) (start off : Nat),
      ∀ ch ∈ chunkGo nid hs ps cur start off, ch.note_id = nid := by
  intro ps
  induction ps with
  | nil =>
    intro cur start off ch hch
    unfold chunkGo at hch
    by_cases ht : (trimChars cur).length ≠ 0
    · rw [if_pos ht] at hch
      rw [List.mem_singleton] at hch
      subst hch
      rfl
    · rw [if_neg ht] at hch
      simp at hch
  | cons p ps ih =>
    intro cur start off ch hch
    unfold chunkGo at hch
    by_cases hf : cur.length ≠ 0 ∧ maxChunkSize < cur.length + p.length
    · rw [if_pos hf] at hch
      rcases List.mem_cons.mp hch with hch | hch
      · subst hch
        rfl
      · exact ih p off (off + p.length + 2) ch hch
    · rw [if_neg hf] at hch
      by_cases h2 : cur.length ≠ 0
      · rw [if_pos h2] at hch
        exact ih (cur ++ parSep ++ p) start (off + p.length + 2) ch hch
      · rw [if_neg h2] at hch
        exact ih p off (off + p.length + 2) ch hch

/-- The heading projection does not depend on the first autoincrement id. -/
theorem projH_genHeadingRows (nid c : List Char) (i j : Nat) :
    projH (genHeadingRows nid c i) = projH (genHeadingRows nid c j) := by
  unfold projH genHeadingRows
  rw [List.map_map, List.map_map]
  exact List.map_congr_left (fun e _ => rfl)

/-- The chunk projection does not depend on the headings passed to the
chunker: the headings only decide the heading association column. -/
theorem projC_chunkGo (nid : List Char) (hs hs2 : List HeadingRow) :
    ∀ (ps : List (List Char)) (cur : List Char) (start off : Nat),
      projC (chunkGo nid hs ps cur start off) = projC (chunkGo nid hs2 ps cur start off) := by
  intro ps
  induction ps with
  | nil =>
    intro cur start off
    unfold chunkGo
    by_cases ht : (trimChars cur).length ≠ 0
    · rw [if_pos ht, if_pos ht]
      rfl
    · rw [if_neg ht, if_neg ht]
  | cons p ps ih =>
    intro cur start off
    unfold chunkGo
    by_cases hf : cur.length ≠ 0 ∧ maxChunkSize < cur.length + p.length
    · rw [if_pos hf, if_pos hf]
      show (generate_chunk_id nid start, start, off, cur) :: projC _ =
        (generate_chunk_id nid start, start, off, cur) :: projC _
      rw [ih p off (off + p.length + 2)]
    · rw [if_neg hf, if_neg hf]
      by_cases h2 : cur.length ≠ 0
      · rw [if_pos h2, if_pos h2]
        exact ih (cur ++ parSep ++ p) start (off + p.length + 2)
      · rw [if_neg h2, if_neg h2]
        exact ih p off (off + p.length + 2)

/-- Upserting the same note row twice leaves the notes table where the first
upsert put it: the replaced row is deleted and the identical row re-appended
at the same place, the end of the table. -/
theorem upsert_note_twice (db : DB) (p c m : List Char) :
    (upsert_note (index_note db p c m).1 p c m).1.notes =
      (upsert_note db p c m).1.notes := by
  rw [upsert_note_notes, upsert_note_notes, index_note_notes, upsert_note_notes]
  rw [filter_not_append_idem db.notes _ (fun n => n.note_id == p) ?_]
  intro r hr
  rw [List.mem_singleton] at hr
  subst hr
  exact beq_self_eq_true p

/-- C7.  Indexing the same (path, content, modifiedAt) twice in succession
yields identical derived rows for the note: the same heading texts, levels
and offsets (heading autoincrement ids do change between passes and are not
part of the claim), fully identical link rows (destinations, display texts,
occurrence counts), the same chunk identifiers, spans and texts (the chunk
identifier is a deterministic digest of note identity and start offset, and
only the heading-association column differs), and the identical notes row. -/
theorem C7_idempotent (db : DB) (p c m : List Char) :
    projH ((index_note (index_note db p c m).1 p c m).1.headings.filter
        (fun h => h.note_id == p)) =
      projH ((index_note db p c m).1.headings.filter (fun h => h.note_id == p)) ∧
    (index_note (index_note db p c m).1 p c m).1.links.filter
        (fun l => l.src_note == p) =
      (index_note db p c m).1.links.filter (fun l => l.src_note == p) ∧
    projC ((index_note (index_note db p c m).1 p c m).1.chunks.filter
        (fun ch => ch.note_id == p)) =
      projC ((index_note db p c m).1.chunks.filter (fun ch => ch.note_id == p)) ∧
    (index_note (index_note db p c m).1 p c m).1.notes = (index_note db p c m).1.notes := by
  have hHsel : ∀ (X : DB),
      (index_note X p c m).1.headings.filter (fun h => h.note_id == p) =
        genHeadingRows p c X.nextHeadingId := by
    intro X
    rw [index_note_headings]
    exact filter_pos_append X.headings _ (fun h => h.note_id == p) (by
      intro r hr
      rw [beq_iff_eq]
      exact genHeadingRows_note_id p c _ r hr)
  have hLsel : ∀ (X : DB),
      (index_note X p c m).1.links.filter (fun l => l.src_note == p) =
        linkRows (upsert_note X p c m).1.notes p c := by
    intro X
    rw [index_note_links]
    exact filter_pos_append X.links _ (fun l => l.src_note == p) (by
      intro r hr
      rw [beq_iff_eq]
      exact linkRows_src _ p c r hr)
  have hCsel : ∀ (X : DB),
      (index_note X p c m).1.chunks.filter (fun ch => ch.note_id == p) =
        chunkRowsOf p c (genHeadingRows p c X.nextHeadingId) := by
    intro X
    rw [index_note_chunks]
    exact filter_pos_append X.chunks _ (fun ch => ch.note_id == p) (by
      intro r hr
      rw [beq_iff_eq]
      exact chunkGo_note_id p _ (splitPar c) [] 0 0 r hr)
  refine ⟨?_, ?_, ?_, ?_⟩
  · rw [hHsel, hHsel]
    exact projH_genHeadingRows p c _ _
  · rw [hLsel, hLsel, upsert_note_twice]
  · rw [hCsel, hCsel]
    exact projC_chunkGo p _ _ (splitPar c) [] 0 0
  · show (upsert_note (index_note db p c m).1 p c m).1.notes = (upsert_note db p c m).1.notes
    exact upsert_note_twice db p c m

/-! ## C8: forward references -/

/-- C8.  Indexing note A containing a link to B before B exists stores the
edge with the raw destination B; indexing note B (title B) leaves A's edge
untouched (no retroactive repair); re-indexing A repoints the edge to B's
path.  In general, indexing any note never touches the outbound edges of any
other note. -/
theorem C8_forward_reference :
    c8db1.links = [⟨"A.md".data, "B".data, "B".data, 1⟩] ∧
    c8db2.links = [⟨"A.md".data, "B".data, "B".data, 1⟩] ∧
    c8db3.links.filter (fun l => l.src_note == "A.md".data) =
      [⟨"A.md".data, "notes/B.md".data, "B".data, 1⟩] ∧
    (∀ (db : DB) (p c m q : List Char), q ≠ p →
      (index_note db p c m).1.links.filter (fun l => l.src_note == q) =
        db.links.filter (fun l => l.src_note == q)) := by
  refine ⟨by decide, by decide, by decide, ?_⟩
  intro db p c m q hqp
  rw [index_note_links, List.filter_append, List.filter_filter]
  have h1 : (db.links.filter fun a => a.src_note == q && !(a.src_note == p)) =
      db.links.filter (fun l => l.src_note == q) := by
    apply List.filter_congr
    intro a _
    by_cases hq : a.src_note = q
    · have h3 : (a.src_note == p) = false := by
        rw [beq_eq_false_iff_ne]; rw [hq]; exact hqp
      simp [hq, h3]
      exact hqp
    · have h3 : (a.src_note == q) = false := by rw [beq_eq_false_iff_ne]; exact hq
      simp [h3]
  have h2 : (linkRows (upsert_note db p c m).1.notes p c).filter
      (fun l => l.src_note == q) = [] := by
    rw [List.filter_eq_nil_iff]
    intro a ha
    have hs := linkRows_src (resolve_link_target (upsert_note db p c m).1.notes) p c a ha
    have h3 : (a.src_note == q) = false := by
      rw [beq_eq_false_iff_ne, hs]
      intro hh
      exact hqp hh.symm
    simp [h3]
  rw [h1, h2, List.append_nil]

/-- C8 witness: the non-interference part applied at a concrete input. -/
theorem C8_witness :
    (index_note emptyDB "x.md".data "hello".data "t".data).1.links.filter
        (fun l => l.src_note == "q".data) =
      emptyDB.links.filter (fun l => l.src_note == "q".data) :=
  C8_forward_reference.2.2.2 emptyDB "x.md".data "hello".data "t".data "q".data (by decide)

/-! ## C9: propagation of storage failures -/

/-- C9 counterexample.  The claim says no step of indexing, link-target
resolution included, swallows a storage error.  The resolver catches
`sqlite3.Error` and returns the raw target: with a failing resolver query the
index call still succeeds and stores the raw destination B, although the
corpus contains a note titled B that the working resolver maps to its path. -/
theorem C9_counterexample :
    c9run.2 ≠ none ∧
    c9run.1.links.filter (fun l => l.src_note == "A.md".data) =
      [⟨"A.md".data, "B".data, "B".data, 1⟩] ∧
    (index_note c9db "A.md".data "[[B]]".data "t1".data).1.links.filter
        (fun l => l.src_note == "A.md".data) =
      [⟨"A.md".data, "notes/B.md".data, "B".data, 1⟩] := by
  refine ⟨by decide, by decide, by decide⟩

/-- C9 (amended): a storage failure in the upsert, heading, link or chunk
step makes the whole call fail (the orchestrator performs no retries and no
step catches those), but a storage failure inside `_resolve_link_target` is
swallowed there: the call succeeds and behaves exactly like the pipeline with
the identity resolver, storing raw trimmed targets as destinations. -/
theorem C9_amended (db : DB) (f : Faults) (p c m : List Char) :
    ((f.upsert || f.headings || f.links || f.chunks) = true →
      (index_note_f db f p c m).2 = none) ∧
    (index_note_f db ⟨false, false, false, false, true⟩ p c m =
      ((index_note_with (fun _ t => t) db p c m).1,
        some (index_note_with (fun _ t => t) db p c m).2)) ∧
    (index_note_f db noFaults p c m =
      ((index_note db p c m).1, some (index_note db p c m).2)) := by
  refine ⟨?_, rfl, rfl⟩
  obtain ⟨fu, fh, fl, fc, fr⟩ := f
  intro hf
  cases fu <;> cases fh <;> cases fl <;> cases fc <;> first | rfl | simp at hf

/-- C9 witness: a failing upsert step fails the call. -/
theorem C9_witness :
    (index_note_f emptyDB ⟨true, false, false, false, false⟩ "a".data "b".data "t".data).2 =
      none :=
  (C9_amended emptyDB ⟨true, false, false, false, false⟩ "a".data "b".data "t".data).1 rfl

/-! ## C10: backlink queries on unknown notes -/

/-- C10.  For a path with no notes row, `get_backlinks` returns the empty
list without signalling anything, while `get_note_info` on the same path
reports NotFound (`none`). -/
theorem C10_unknown_path (db : DB) (p : List Char)
    (h : ∀ n ∈ db.notes, n.path ≠ p ∧ n.note_id ≠ p) :
    get_backlinks db p = [] ∧ get_note_info db p = none := by
  constructor
  · unfold get_backlinks
    have hf : db.notes.find? (fun n => n.path == p) = none := by
      rw [List.find?_eq_none]; intro n hn; simp [(h n hn).1]
    rw [hf]
  · unfold get_note_info
    have hf : db.notes.find? (fun n => n.path == p || n.note_id == p) = none := by
      rw [List.find?_eq_none]; intro n hn; simp [(h n hn).1, (h n hn).2]
    rw [hf]

/-- C10 witness: a one-note corpus queried at an unknown path. -/
theorem C10_witness :
    get_backlinks (index_note emptyDB "a.md".data "x".data "t".data).1 "zzz".data = [] ∧
    get_note_info (index_note emptyDB "a.md".data "x".data "t".data).1 "zzz".data = none :=
  C10_unknown_path (index_note emptyDB "a.md".data "x".data "t".data).1 "zzz".data (by decide)

end ConeEditor
